import Mathlib

/-!
Verification development for the AntiFlattenDistributionStrategy backtrack
sampler (src/strategy/antiflatten_distribution_strategy.py).

The Python code is embedded shallowly:
* probabilities and logits are modelled as rational numbers (exact real
  arithmetic in place of floating point, with the literal epsilon 1e-8
  modelled as 1/100000000);
* a torch tensor of shape (batch, heads, sequence-position, feature) is a
  four-deep nested list;
* the mutable object state (fields cumulative_prob_threshold,
  ratio_threshold, _is_flat, _backtrack_position, _keep_index) is an
  explicit record threaded through the hook functions;
* the Python slice l[:n] (with a possibly negative n) is pyTake;
* torch.sort descending is an insertion sort (only the multiset of values
  matters), torch.cumsum is cumsum, torch.searchsorted on the monotone
  cumulative-sum vector is a countP of the entries strictly below the
  needle, and torch.argmax returns the index of the first maximum.
-/

set_option maxRecDepth 100000

namespace AntiFlatten

/-- A torch tensor of shape (batch, heads, sequence-position, feature),
as cached per layer by the host model. -/
abbrev Tensor4 := List (List (List (List ℚ)))

/-- past_key_values: a tuple of per-layer tuples of tensors. -/
abbrev Cache := List (List Tensor4)

/-- The state of an AntiFlattenDistributionStrategy object: the two
constructor thresholds plus the mutable bookkeeping fields
_is_flat, _backtrack_position, _keep_index (leading underscores dropped). -/
structure Strategy where
  cumulative_prob_threshold : ℚ
  ratio_threshold : ℚ
  is_flat : Bool
  backtrack_position : Option (Nat × Nat)
  keep_index : Nat
deriving DecidableEq

/-- The constructor __init__: thresholds stored, is_flat False,
backtrack position None, keep index 0. -/
def initStrategy (cumulative_prob_threshold ratio_threshold : ℚ) : Strategy :=
  { cumulative_prob_threshold := cumulative_prob_threshold
    ratio_threshold := ratio_threshold
    is_flat := false
    backtrack_position := none
    keep_index := 0 }

/-- Insertion step for descending sort. -/
def insertDesc (x : ℚ) : List ℚ → List ℚ
  | [] => [x]
  | y :: ys => if y ≤ x then x :: y :: ys else y :: insertDesc x ys

/-- torch.sort(probs, descending=True): the sorted values. -/
def sortDesc (l : List ℚ) : List ℚ := l.foldr insertDesc []

/-- Running cumulative sums continuing from an accumulator. -/
def cumsumFrom (acc : ℚ) : List ℚ → List ℚ
  | [] => []
  | p :: rest => (acc + p) :: cumsumFrom (acc + p) rest

/-- torch.cumsum(sorted_probs, dim=0). -/
def cumsum (l : List ℚ) : List ℚ := cumsumFrom 0 l

/-- torch.argmax: index of the first maximal entry (0 on an empty list). -/
def argmaxAux : List ℚ → Nat → Nat → ℚ → Nat
  | [], _, best, _ => best
  | p :: rest, i, best, bestVal =>
      if bestVal < p then argmaxAux rest (i + 1) i p
      else argmaxAux rest (i + 1) best bestVal

/-- torch.argmax over a probability vector. -/
def argmax : List ℚ → Nat
  | [] => 0
  | p :: rest => argmaxAux rest 1 0 p

/-- _is_distribution_flat(self, probs): sort descending, cumulative sums,
num_top_tokens = searchsorted(cumulative, threshold) + 1, False when fewer
than two top tokens, else compare top_probs[0] / (top_probs[-1] + 1e-8)
with the ratio threshold. -/
def is_distribution_flat (cumulative_prob_threshold ratio_threshold : ℚ)
    (probs : List ℚ) : Bool :=
  let sorted_probs := sortDesc probs
  let cumulative_probs := cumsum sorted_probs
  let num_top_tokens :=
    cumulative_probs.countP (fun c => decide (c < cumulative_prob_threshold)) + 1
  let top_probs := sorted_probs.take num_top_tokens
  if num_top_tokens < 2 then false
  else
    let max_prob := top_probs.headD 0
    let last_max_prob := top_probs.getLastD 0 + 1 / 100000000
    decide (max_prob / last_max_prob ≤ ratio_threshold)

/-- on_logits(self, logits, continuation_tokens): when the last verdict was
flat and a backtrack position is pending, force the preferred token's logit
to the maximum representable value (finfoMax) and clear the position;
otherwise leave everything unchanged.  Returns the updated object state
together with the returned logits row. -/
def on_logits (finfoMax : ℚ) (s : Strategy) (logits : List ℚ) :
    Strategy × List ℚ :=
  match s.is_flat, s.backtrack_position with
  | true, some p => ({ s with backtrack_position := none }, logits.set p.2 finfoMax)
  | _, _ => (s, logits)

/-- on_probs(self, probs, continuation_tokens): record the flatness verdict,
return the distribution unmodified. -/
def on_probs (s : Strategy) (probs : List ℚ) : Strategy × List ℚ :=
  ({ s with is_flat :=
      is_distribution_flat s.cumulative_prob_threshold s.ratio_threshold probs },
   probs)

/-- on_next_token(self, continuation_tokens, probs): compare the freshly
appended token with the distribution's argmax and update keep index and
pending backtrack position. -/
def on_next_token (s : Strategy) (continuation_tokens : List Nat)
    (probs : List ℚ) : Strategy :=
  let latest_token := continuation_tokens.getLastD 0
  let highest_prob_token := argmax probs
  if latest_token ≠ highest_prob_token then
    { s with keep_index := continuation_tokens.length - 1
             backtrack_position := some (continuation_tokens.length - 1, highest_prob_token) }
  else if s.backtrack_position = none then
    { s with keep_index := s.keep_index + 1 }
  else s

/-- Python slicing l[:n] where n may be negative (n = -k keeps all but the
last k elements, clamped at the empty list). -/
def pyTake (n : Int) (l : List α) : List α :=
  if 0 ≤ n then l.take n.toNat else l.take (l.length - (-n).toNat)

/-- The while-loop of backtrack, with explicit fuel (each iteration pops one
token, so the initial length is enough fuel): pop the last token while the
current length exceeds the frontier index. -/
def popLoop (frontier : Nat) : Nat → List Nat → List Nat
  | 0, toks => toks
  | fuel + 1, toks =>
      if frontier < toks.length then popLoop frontier fuel toks.dropLast
      else toks

/-- The while-loop of backtrack: pop the last token while the current
length exceeds the frontier index. -/
def popToFrontier (frontier : Nat) (tokens : List Nat) : List Nat :=
  popLoop frontier tokens.length tokens

/-- backtrack(self, continuation_tokens, past_key_values): when the last
verdict was flat and a position is pending, pop tokens down to the frontier
and slice every cached layer with [:, :, :current - initial, :]; the object
state itself is not modified by this method.  A falsy cache (None or the
empty tuple) skips the slicing. -/
def backtrack (s : Strategy) (continuation_tokens : List Nat)
    (past_key_values : Option Cache) : Strategy × List Nat × Option Cache :=
  match s.is_flat, s.backtrack_position with
  | true, some p =>
      let initial_position := continuation_tokens.length
      let new_tokens := popToFrontier p.1 continuation_tokens
      let current_position := new_tokens.length
      let new_cache :=
        match past_key_values with
        | none => none
        | some c =>
            if c.isEmpty then some c
            else some (c.map (fun kv_pair => kv_pair.map (fun layer =>
              layer.map (fun batch => batch.map (fun head =>
                pyTake ((current_position : Int) - (initial_position : Int)) head)))))
      (s, new_tokens, new_cache)
  | _, _ => (s, continuation_tokens, past_key_values)

/-- One host generation step in the prescribed order: on_logits, on_probs,
append the sampled token, on_next_token, optionally backtrack.  Only the
state-relevant data is carried: the distribution, the sampled token, and
whether the host calls backtrack this step. -/
structure Step where
  probs : List ℚ
  sampled : Nat
  doBacktrack : Bool
deriving DecidableEq

/-- Joint state of a generation stream: strategy object plus the
continuation token sequence. -/
structure SysState where
  strat : Strategy
  tokens : List Nat
deriving DecidableEq

/-- Execute one prescribed generation step.  The logits values do not
influence the state transition, so dummy logits are passed to on_logits. -/
def runStep (st : SysState) (stp : Step) : SysState :=
  let s1 := (on_logits 0 st.strat []).1
  let s2 := (on_probs s1 stp.probs).1
  let toks := st.tokens ++ [stp.sampled]
  let s3 := on_next_token s2 toks stp.probs
  if stp.doBacktrack then
    let r := backtrack s3 toks none
    { strat := r.1, tokens := r.2.1 }
  else
    { strat := s3, tokens := toks }

/-- Run a stream of prescribed steps. -/
def runTrace (st : SysState) (steps : List Step) : SysState :=
  steps.foldl runStep st

/-- A freshly constructed stream: new strategy object, empty sequence. -/
def initSys (cumulative_prob_threshold ratio_threshold : ℚ) : SysState :=
  ⟨initStrategy cumulative_prob_threshold ratio_threshold, []⟩

/-- The smallest prefix length k (at least 1) whose sum reaches thr, stated
the way the specification words it: none when even the whole list falls
short. -/
def firstReach (thr : ℚ) : List ℚ → Option Nat
  | [] => none
  | p :: rest =>
      if thr ≤ p then some 1
      else (firstReach (thr - p) rest).map (· + 1)

/-- The flatness classifier as the specification words it (for comparison
with the implementation is_distribution_flat): sort descending, take the
smallest prefix length k whose cumulative sum first reaches the cumulative
threshold, return false when k is less than 2, and otherwise return true
iff sorted[0] / (sorted[k-1] + 1e-8) is at most the ratio threshold. -/
def is_flat_spec (cumulative_prob_threshold ratio_threshold : ℚ)
    (probs : List ℚ) : Bool :=
  let sorted := sortDesc probs
  match firstReach cumulative_prob_threshold sorted with
  | none => false
  | some k =>
      if k < 2 then false
      else decide (sorted.headD 0 / (sorted.getD (k - 1) 0 + 1 / 100000000)
        ≤ ratio_threshold)

/-- Stream invariant: the keep index never exceeds the number of generated
tokens, and a pending backtrack position carries exactly the keep index as
its frontier. -/
def Inv (st : SysState) : Prop :=
  st.strat.keep_index ≤ st.tokens.length ∧
  ∀ p, st.strat.backtrack_position = some p → p.1 = st.strat.keep_index

/-- A step that keeps a pending divergence dormant: the host samples the
argmax token, the distribution is not flat for the given thresholds, and
the host does not call backtrack. -/
def QuietStep (cumulative_prob_threshold ratio_threshold : ℚ)
    (stp : Step) : Prop :=
  stp.sampled = argmax stp.probs ∧
  is_distribution_flat cumulative_prob_threshold ratio_threshold stp.probs = false ∧
  stp.doBacktrack = false

/-- Persistence predicate for claim C10: thresholds, the recorded pending
position, the frozen keep index, and a non-flat last verdict. -/
def Dormant (c r : ℚ) (pos : Nat × Nat) (kp : Nat) (st : SysState) : Prop :=
  st.strat.cumulative_prob_threshold = c ∧
  st.strat.ratio_threshold = r ∧
  st.strat.is_flat = false ∧
  st.strat.backtrack_position = some pos ∧
  st.strat.keep_index = kp

/-- The Scenario C distribution: argmax is token 7 and the distribution is
flat for the default thresholds (0.30 and 0.28 within the top prefix). -/
def scenC_probs : List ℚ :=
  [7/100, 7/100, 7/100, 7/100, 7/100, 7/100, 28/100, 30/100]

/-- A Scenario C cache: one layer pair of two (1, 1, 3, 1) tensors, the
sequence-position length 3 matching the three generated tokens. -/
def scenC_cache : Cache :=
  [[[[[[1], [2], [3]]]], [[[[4], [5], [6]]]]]]

/-- The strategy state right after the Scenario C divergence step: a clean
strategy ran on_probs with the flat Scenario C distribution, then
on_next_token on tokens [5, 9, 2] whose last token 2 differs from the
argmax 7. -/
def scenC_diverged : Strategy :=
  on_next_token ((on_probs (initStrategy (35/100) (3/2)) scenC_probs).1)
    [5, 9, 2] scenC_probs

/-! ### Helper lemmas about the cumulative-sum / searchsorted computation -/

lemma cumsumFrom_add (a b : ℚ) (l : List ℚ) :
    cumsumFrom (a + b) l = (cumsumFrom b l).map (a + ·) := by
  induction l generalizing b with
  | nil => simp [cumsumFrom]
  | cons p rest ih =>
      simp [cumsumFrom, add_assoc, ih]

lemma cumsumFrom_eq_map (a : ℚ) (l : List ℚ) :
    cumsumFrom a l = (cumsum l).map (a + ·) := by
  have h := cumsumFrom_add a 0 l
  simpa [cumsum] using h

lemma le_of_mem_cumsumFrom {x a : ℚ} {l : List ℚ}
    (hl : ∀ p ∈ l, 0 ≤ p) (hx : x ∈ cumsumFrom a l) : a ≤ x := by
  induction l generalizing a with
  | nil => simp [cumsumFrom] at hx
  | cons p rest ih =>
      have hp : 0 ≤ p := hl p (by simp)
      simp only [cumsumFrom, List.mem_cons] at hx
      rcases hx with rfl | hx
      · linarith
      · have h := ih (fun q hq => hl q (by simp [hq])) hx
        linarith

lemma length_cumsumFrom (a : ℚ) (l : List ℚ) :
    (cumsumFrom a l).length = l.length := by
  induction l generalizing a with
  | nil => rfl
  | cons p rest ih => simp [cumsumFrom, ih]

lemma add_sum_mem_cumsumFrom (a : ℚ) {l : List ℚ} (h : l ≠ []) :
    a + l.sum ∈ cumsumFrom a l := by
  induction l generalizing a with
  | nil => exact absurd rfl h
  | cons p rest ih =>
      by_cases hr : rest = []
      · subst hr
        simp [cumsumFrom]
      · have h2 := ih (a + p) hr
        simp only [cumsumFrom, List.mem_cons, List.sum_cons]
        right
        have : a + (p + rest.sum) = a + p + rest.sum := by ring
        rw [this]
        exact h2

lemma sum_mem_cumsum {l : List ℚ} (h : l ≠ []) : l.sum ∈ cumsum l := by
  have := add_sum_mem_cumsumFrom 0 h
  simpa [cumsum] using this

lemma firstReach_eq_countP {l : List ℚ} {thr : ℚ}
    (hl : ∀ p ∈ l, 0 ≤ p) (hpos : 0 < thr) (hsum : thr ≤ l.sum) :
    firstReach thr l =
      some ((cumsum l).countP (fun c => decide (c < thr)) + 1) := by
  induction l generalizing thr with
  | nil =>
      simp only [List.sum_nil] at hsum
      linarith
  | cons p rest ih =>
      have hp : 0 ≤ p := hl p (by simp)
      have hrest : ∀ q ∈ rest, 0 ≤ q := fun q hq => hl q (by simp [hq])
      have hcum : cumsum (p :: rest) = p :: cumsumFrom p rest := by
        simp [cumsum, cumsumFrom]
      by_cases hc : thr ≤ p
      · have hzero : (cumsum (p :: rest)).countP (fun c => decide (c < thr)) = 0 := by
          rw [List.countP_eq_zero]
          intro c hcm
          rw [hcum] at hcm
          rcases List.mem_cons.mp hcm with rfl | hcm
          · simpa using not_lt.mpr hc
          · have := le_of_mem_cumsumFrom hrest hcm
            simpa using not_lt.mpr (le_trans hc this)
        rw [hzero]
        simp [firstReach, hc]
      · push_neg at hc
        have hsum' : thr - p ≤ rest.sum := by
          simp only [List.sum_cons] at hsum
          linarith
        have hkey := ih hrest (by linarith) hsum'
        have hshift : (cumsumFrom p rest).countP (fun c => decide (c < thr)) =
            (cumsum rest).countP (fun c => decide (c < thr - p)) := by
          rw [cumsumFrom_eq_map, List.countP_map]
          exact List.countP_congr (fun x _ => by
            simp only [Function.comp]
            constructor
            · intro hx
              have := of_decide_eq_true hx
              exact decide_eq_true (by linarith)
            · intro hx
              have := of_decide_eq_true hx
              exact decide_eq_true (by linarith))
        have hcount : (cumsum (p :: rest)).countP (fun c => decide (c < thr)) =
            (cumsum rest).countP (fun c => decide (c < thr - p)) + 1 := by
          rw [hcum, List.countP_cons, hshift]
          simp [hc]
        rw [hcount]
        simp only [firstReach, not_le.mpr hc, if_false, hkey]
        rfl

/-! ### Helper lemmas about the descending sort -/

lemma mem_insertDesc {y x : ℚ} {l : List ℚ} :
    y ∈ insertDesc x l ↔ y = x ∨ y ∈ l := by
  induction l with
  | nil => simp [insertDesc]
  | cons z zs ih =>
      by_cases h : z ≤ x
      · simp [insertDesc, h]
      · simp [insertDesc, h, ih]
        tauto

lemma sum_insertDesc (x : ℚ) (l : List ℚ) :
    (insertDesc x l).sum = x + l.sum := by
  induction l with
  | nil => simp [insertDesc]
  | cons z zs ih =>
      by_cases h : z ≤ x
      · simp [insertDesc, h]
      · simp [insertDesc, h, ih]
        ring

lemma mem_sortDesc {x : ℚ} {l : List ℚ} : x ∈ sortDesc l ↔ x ∈ l := by
  induction l with
  | nil => simp [sortDesc]
  | cons p rest ih =>
      show x ∈ insertDesc p (sortDesc rest) ↔ _
      rw [mem_insertDesc, ih]
      simp

lemma sum_sortDesc (l : List ℚ) : (sortDesc l).sum = l.sum := by
  induction l with
  | nil => rfl
  | cons p rest ih =>
      show (insertDesc p (sortDesc rest)).sum = _
      rw [sum_insertDesc, ih]
      simp

/-! ### Helper lemmas about take, headD, getLastD and countP bounds -/

lemma countP_lt_length_of_mem {l : List ℚ} {x : ℚ} {p : ℚ → Bool}
    (hx : x ∈ l) (hpx : p x = false) : l.countP p < l.length := by
  rcases lt_or_eq_of_le (List.countP_le_length (p := p) (l := l)) with h | h
  · exact h
  · have := List.countP_eq_length.mp h x hx
    rw [hpx] at this
    cases this

lemma headD_take {l : List ℚ} {n : Nat} (h : 1 ≤ n) :
    (l.take n).headD 0 = l.headD 0 := by
  cases l with
  | nil => simp
  | cons p rest =>
      cases n with
      | zero => omega
      | succ m => simp

lemma getLastD_take (d : ℚ) {l : List ℚ} {n : Nat}
    (h1 : 1 ≤ n) (h2 : n ≤ l.length) :
    (l.take n).getLastD d = l.getD (n - 1) d := by
  induction l generalizing n d with
  | nil => simp at h2; omega
  | cons p rest ih =>
      cases n with
      | zero => omega
      | succ m =>
          cases m with
          | zero => simp
          | succ k =>
              have hk : 1 ≤ k + 1 := by omega
              have hlen : k + 1 ≤ rest.length := by
                simp at h2
                omega
              have hIH := ih p hk hlen
              simp only [List.take_succ_cons, List.getLastD_cons, hIH]
              have h3 : k < rest.length := by omega
              simp only [Nat.add_sub_cancel, List.getD_cons_succ]
              rw [List.getD_eq_getElem rest p h3, List.getD_eq_getElem rest d h3]

/-- Refinement of the flatness classifier: on nonnegative distributions
whose total mass reaches the (positive) cumulative threshold, the
implementation agrees with the classifier as the specification words it. -/
lemma is_distribution_flat_eq_spec {probs : List ℚ} {cthr rthr : ℚ}
    (hnn : ∀ p ∈ probs, 0 ≤ p) (hpos : 0 < cthr) (hsum : cthr ≤ probs.sum) :
    is_distribution_flat cthr rthr probs = is_flat_spec cthr rthr probs := by
  have hnn' : ∀ p ∈ sortDesc probs, 0 ≤ p := fun p hp => hnn p (mem_sortDesc.mp hp)
  have hsum' : cthr ≤ (sortDesc probs).sum := by rw [sum_sortDesc]; exact hsum
  have hfr := firstReach_eq_countP hnn' hpos hsum'
  simp only [is_distribution_flat, is_flat_spec, hfr]
  by_cases h2 : (cumsum (sortDesc probs)).countP (fun c => decide (c < cthr)) + 1 < 2
  · simp [h2]
  · have hc1 : 1 ≤ (cumsum (sortDesc probs)).countP (fun c => decide (c < cthr)) := by
      omega
    have hne : sortDesc probs ≠ [] := by
      intro h
      rw [h] at hsum'
      simp at hsum'
      linarith
    have hmem := sum_mem_cumsum hne
    have hnotlt : (fun c => decide (c < cthr)) (sortDesc probs).sum = false := by
      simp only [decide_eq_false_iff_not, not_lt]
      exact hsum'
    have hcnt := countP_lt_length_of_mem (p := fun c => decide (c < cthr)) hmem hnotlt
    have hlencs : (cumsum (sortDesc probs)).length = (sortDesc probs).length := by
      simp [cumsum, length_cumsumFrom]
    have hlen : (cumsum (sortDesc probs)).countP (fun c => decide (c < cthr)) + 1
        ≤ (sortDesc probs).length := by omega
    simp only [h2, if_false]
    rw [headD_take (by omega), getLastD_take 0 (by omega) hlen]

/-! ### The pop loop of backtrack truncates to the frontier -/

lemma popLoop_eq_take (frontier : Nat) :
    ∀ (fuel : Nat) (toks : List Nat), toks.length ≤ fuel →
      popLoop frontier fuel toks = toks.take frontier := by
  intro fuel
  induction fuel with
  | zero =>
      intro toks h
      have : toks = [] := List.length_eq_zero.mp (by omega)
      subst this
      simp [popLoop]
  | succ n ih =>
      intro toks h
      by_cases hlt : frontier < toks.length
      · have hdl : toks.dropLast.length ≤ n := by
          simp only [List.length_dropLast]
          omega
        simp only [popLoop, hlt, if_true]
        rw [ih toks.dropLast hdl, List.dropLast_eq_take, List.take_take]
        have hm : min frontier (toks.length - 1) = frontier := by omega
        rw [hm]
      · simp only [popLoop, hlt, if_false]
        rw [List.take_of_length_le (by omega)]

lemma popToFrontier_eq_take (frontier : Nat) (toks : List Nat) :
    popToFrontier frontier toks = toks.take frontier :=
  popLoop_eq_take frontier toks.length toks (le_refl _)

/-! ### Claim theorems -/

/-- C2: the flatness classifier sorts the distribution descending, takes the
smallest prefix length k whose running cumulative sum first reaches the
cumulative threshold, returns false when k is below 2, and otherwise returns
true iff sorted[0] / (sorted[k-1] + 1e-8) is at most the ratio threshold
(stated as agreement with the spec-worded classifier is_flat_spec, for every
nonnegative distribution whose mass reaches the positive threshold); in
particular [0.5, 0.48, 0.02] with cumulative threshold 0.35 is not flat
(k = 1) and [0.30, 0.29, 0.28, 0.13] is flat (k = 2). -/
theorem C2_flatness_classifier :
    (∀ (probs : List ℚ) (cthr rthr : ℚ),
        (∀ p ∈ probs, 0 ≤ p) → 0 < cthr → cthr ≤ probs.sum →
        is_distribution_flat cthr rthr probs = is_flat_spec cthr rthr probs) ∧
    is_distribution_flat (35/100) (3/2) [1/2, 12/25, 1/50] = false ∧
    is_distribution_flat (35/100) (3/2) [3/10, 29/100, 28/100, 13/100] = true :=
  ⟨fun _ _ _ hnn hpos hsum => is_distribution_flat_eq_spec hnn hpos hsum,
   by with_unfolding_all decide, by with_unfolding_all decide⟩

/-- Witness for C2 at the concrete Scenario B distribution. -/
theorem C2_witness :
    (∀ p ∈ ([3/10, 29/100, 28/100, 13/100] : List ℚ), 0 ≤ p) ∧
    (0 : ℚ) < 35/100 ∧
    (35/100 : ℚ) ≤ ([3/10, 29/100, 28/100, 13/100] : List ℚ).sum ∧
    is_distribution_flat (35/100) (3/2) [3/10, 29/100, 28/100, 13/100] =
      is_flat_spec (35/100) (3/2) [3/10, 29/100, 28/100, 13/100] :=
  ⟨by with_unfolding_all decide, by with_unfolding_all decide,
   by with_unfolding_all decide,
   C2_flatness_classifier.1 [3/10, 29/100, 28/100, 13/100] (35/100) (3/2)
     (by with_unfolding_all decide) (by with_unfolding_all decide)
     (by with_unfolding_all decide)⟩

/-- C4: whenever the freshly appended token differs from the distribution's
argmax, on_next_token sets the keep index to len(tokens) - 1 and the pending
backtrack position to (keep index, argmax token). -/
theorem C4_divergence_bookkeeping (s : Strategy) (tokens : List Nat)
    (probs : List ℚ) (h1 : tokens ≠ [])
    (h2 : tokens.getLastD 0 ≠ argmax probs) :
    (on_next_token s tokens probs).keep_index = tokens.length - 1 ∧
    (on_next_token s tokens probs).backtrack_position =
      some (tokens.length - 1, argmax probs) := by
  simp only [on_next_token]
  rw [if_pos h2]
  exact ⟨rfl, rfl⟩

/-- Witness for C4: tokens [5, 9, 2], a distribution with argmax 7. -/
theorem C4_witness :
    ([5, 9, 2] : List Nat) ≠ [] ∧
    ([5, 9, 2] : List Nat).getLastD 0 ≠
      argmax [7/100, 7/100, 7/100, 7/100, 7/100, 7/100, 28/100, 30/100] ∧
    (on_next_token (initStrategy (35/100) (3/2)) [5, 9, 2]
        [7/100, 7/100, 7/100, 7/100, 7/100, 7/100, 28/100, 30/100]).keep_index = 2 ∧
    (on_next_token (initStrategy (35/100) (3/2)) [5, 9, 2]
        [7/100, 7/100, 7/100, 7/100, 7/100, 7/100, 28/100, 30/100]).backtrack_position =
      some (2, 7) := by
  refine ⟨by with_unfolding_all decide, by with_unfolding_all decide, ?_⟩
  have h := C4_divergence_bookkeeping (initStrategy (35/100) (3/2)) [5, 9, 2]
    [7/100, 7/100, 7/100, 7/100, 7/100, 7/100, 28/100, 30/100]
    (by with_unfolding_all decide) (by with_unfolding_all decide)
  have ha : argmax [7/100, 7/100, 7/100, 7/100, 7/100, 7/100, 28/100, 30/100] = 7 := by
    with_unfolding_all decide
  rw [ha] at h
  exact h

/-- C5: when a position is pending and the last verdict was flat, on_logits
sets the preferred token's logit to the maximum representable value, leaves
every other entry unchanged, and clears the pending position, so a second
consecutive on_logits call performs no forcing; with no pending position or
a non-flat verdict, on_logits returns its inputs unchanged. -/
theorem C5_on_logits_single_use :
    (∀ (fmax : ℚ) (s : Strategy) (logits : List ℚ) (i tok : Nat),
      s.is_flat = true → s.backtrack_position = some (i, tok) →
      (on_logits fmax s logits).2 = logits.set tok fmax ∧
      (on_logits fmax s logits).1.backtrack_position = none ∧
      (tok < logits.length → ((on_logits fmax s logits).2).getD tok 0 = fmax) ∧
      (∀ j, j ≠ tok → ((on_logits fmax s logits).2).getD j 0 = logits.getD j 0) ∧
      (∀ logits2, on_logits fmax (on_logits fmax s logits).1 logits2 =
        ((on_logits fmax s logits).1, logits2))) ∧
    (∀ (fmax : ℚ) (s : Strategy) (logits : List ℚ),
      s.is_flat = false ∨ s.backtrack_position = none →
      on_logits fmax s logits = (s, logits)) := by
  constructor
  · intro fmax s logits i tok h1 h2
    have heq : on_logits fmax s logits =
        ({ s with backtrack_position := none }, logits.set tok fmax) := by
      simp [on_logits, h1, h2]
    refine ⟨by rw [heq], by rw [heq], ?_, ?_, ?_⟩
    · intro hlt
      rw [heq]
      simp [List.getElem?_set_self hlt]
    · intro j hj
      rw [heq]
      simp [List.getElem?_set_ne (Ne.symm hj)]
    · intro logits2
      rw [heq]
      simp [on_logits]
  · intro fmax s logits h
    rcases h with h | h
    · cases hp : s.backtrack_position <;> simp [on_logits, h, hp]
    · cases hf : s.is_flat <;> simp [on_logits, h, hf]

/-- Witness for C5: forcing token 7 in an 8-entry logits row. -/
theorem C5_witness :
    (on_logits 1000 ⟨35/100, 3/2, true, some (2, 7), 2⟩
      [0, 0, 0, 0, 0, 0, 0, 0]).2 = ([0, 0, 0, 0, 0, 0, 0, 0] : List ℚ).set 7 1000 ∧
    (on_logits 1000 ⟨35/100, 3/2, true, some (2, 7), 2⟩
      [0, 0, 0, 0, 0, 0, 0, 0]).1.backtrack_position = none :=
  ⟨(C5_on_logits_single_use.1 1000 ⟨35/100, 3/2, true, some (2, 7), 2⟩
      [0, 0, 0, 0, 0, 0, 0, 0] 2 7 rfl rfl).1,
   (C5_on_logits_single_use.1 1000 ⟨35/100, 3/2, true, some (2, 7), 2⟩
      [0, 0, 0, 0, 0, 0, 0, 0] 2 7 rfl rfl).2.1⟩

/-- C9: an unwarranted backtrack (non-flat last verdict or no pending
position) returns tokens and cache unchanged, and a missing cache is legal:
backtrack then returns none as the cache while still truncating the tokens
when warranted. -/
theorem C9_unwarranted_and_missing_cache :
    (∀ (s : Strategy) (tokens : List Nat) (cache : Option Cache),
      s.is_flat = false ∨ s.backtrack_position = none →
      backtrack s tokens cache = (s, tokens, cache)) ∧
    (∀ (s : Strategy) (tokens : List Nat),
      (backtrack s tokens none).2.2 = none) ∧
    (∀ (s : Strategy) (tokens : List Nat) (f tok : Nat),
      s.is_flat = true → s.backtrack_position = some (f, tok) →
      (backtrack s tokens none).2.1 = tokens.take f) := by
  refine ⟨?_, ?_, ?_⟩
  · intro s tokens cache h
    rcases h with h | h
    · cases hp : s.backtrack_position <;> simp [backtrack, h, hp]
    · cases hf : s.is_flat <;> simp [backtrack, h, hf]
  · intro s tokens
    cases hf : s.is_flat <;> cases hp : s.backtrack_position <;>
      simp [backtrack, hf, hp]
  · intro s tokens f tok h1 h2
    simp [backtrack, h1, h2, popToFrontier_eq_take]

/-- Witness for C9: an unwarranted call (verdict false) and a warranted call
with a missing cache. -/
theorem C9_witness :
    backtrack ⟨35/100, 3/2, false, some (1, 4), 1⟩ [8, 6] (some scenC_cache) =
      (⟨35/100, 3/2, false, some (1, 4), 1⟩, [8, 6], some scenC_cache) ∧
    (backtrack ⟨35/100, 3/2, true, some (1, 4), 1⟩ [8, 6] none).2.2 = none ∧
    (backtrack ⟨35/100, 3/2, true, some (1, 4), 1⟩ [8, 6] none).2.1 =
      ([8, 6] : List Nat).take 1 :=
  ⟨C9_unwarranted_and_missing_cache.1 ⟨35/100, 3/2, false, some (1, 4), 1⟩
      [8, 6] (some scenC_cache) (Or.inl rfl),
   C9_unwarranted_and_missing_cache.2.1 ⟨35/100, 3/2, true, some (1, 4), 1⟩ [8, 6],
   C9_unwarranted_and_missing_cache.2.2 ⟨35/100, 3/2, true, some (1, 4), 1⟩
      [8, 6] 1 4 rfl rfl⟩

/-- C7 counterexample: a warranted backtrack executes its truncation
([5] becomes []) yet the state afterwards still has the backtrack position
pending, so it is not CLEAN as the claim states. -/
theorem C7_counterexample :
    (backtrack ⟨35/100, 3/2, true, some (0, 7), 0⟩ [5] none).2.1 = [] ∧
    (backtrack ⟨35/100, 3/2, true, some (0, 7), 0⟩
      [5] none).1.backtrack_position = some (0, 7) := by
  with_unfolding_all decide

/-- C7 amended: backtrack never modifies the strategy state, so after a
warranted truncation the position is still pending; it is the next on_logits
call that clears it (the transition to a clean state). -/
theorem C7_amended_still_pending (s : Strategy) (tokens : List Nat)
    (cache : Option Cache) (p : Nat × Nat) (fmax : ℚ) (logits : List ℚ)
    (h1 : s.is_flat = true) (h2 : s.backtrack_position = some p) :
    (backtrack s tokens cache).1 = s ∧
    (backtrack s tokens cache).1.backtrack_position = some p ∧
    (on_logits fmax (backtrack s tokens cache).1 logits).1.backtrack_position
      = none := by
  have hb : (backtrack s tokens cache).1 = s := by
    simp [backtrack, h1, h2]
  refine ⟨hb, ?_, ?_⟩
  · rw [hb]
    exact h2
  · rw [hb]
    simp [on_logits, h1, h2]

/-- Witness for C7's amended statement at a concrete warranted backtrack. -/
theorem C7_witness :
    (backtrack ⟨35/100, 3/2, true, some (1, 4), 1⟩ [8, 6] none).1 =
      ⟨35/100, 3/2, true, some (1, 4), 1⟩ ∧
    (backtrack ⟨35/100, 3/2, true, some (1, 4), 1⟩
      [8, 6] none).1.backtrack_position = some (1, 4) ∧
    (on_logits 1000 (backtrack ⟨35/100, 3/2, true, some (1, 4), 1⟩
      [8, 6] none).1 [0, 0, 0, 0, 0]).1.backtrack_position = none :=
  C7_amended_still_pending ⟨35/100, 3/2, true, some (1, 4), 1⟩ [8, 6] none
    (1, 4) 1000 [0, 0, 0, 0, 0] rfl rfl

/-- C3, evaluation at the failing input: a warranted backtrack with the
frontier equal to the current token length (frontier 1, tokens [5], a
(1, 1, 1, 1) cache layer) keeps the tokens at length 1 = frontier but
empties the cache to sequence-position length 0, because the Python slice
[: current - initial] is [:0] when zero tokens are removed; the claim (and
the spec) require sequence-position length 1 here. -/
theorem C3_cache_emptied_at_frontier_eq_length :
    (1 : Nat) ≤ ([5] : List Nat).length ∧
    (backtrack ⟨35/100, 3/2, true, some (1, 0), 1⟩ [5]
      (some [[[[[[9]]]]]])).2.1 = [5] ∧
    (backtrack ⟨35/100, 3/2, true, some (1, 0), 1⟩ [5]
      (some [[[[[[9]]]]]])).2.2 = some [[[[[]]]]] ∧
    ([[[[[]]]]] : Cache) ≠ [[[[[[9]]]]]] :=
  ⟨by with_unfolding_all decide, by with_unfolding_all decide,
   by with_unfolding_all decide, by with_unfolding_all decide⟩

/-- C1 counterexample: running Scenario C in the order the claim states
(divergence bookkeeping, then the next step's on_logits, then backtrack)
leaves the tokens at [5, 9, 2] and the cache untouched, because on_logits
has already cleared the pending position; the claim asserts backtrack would
return [5, 9]. -/
theorem C1_counterexample :
    scenC_diverged.keep_index = 2 ∧
    scenC_diverged.backtrack_position = some (2, 7) ∧
    scenC_diverged.is_flat = true ∧
    (on_logits 1000 scenC_diverged [0, 0, 0, 0, 0, 0, 0, 0]).2 =
      [0, 0, 0, 0, 0, 0, 0, 1000] ∧
    (backtrack (on_logits 1000 scenC_diverged [0, 0, 0, 0, 0, 0, 0, 0]).1
      [5, 9, 2] (some scenC_cache)).2.1 = [5, 9, 2] ∧
    (backtrack (on_logits 1000 scenC_diverged [0, 0, 0, 0, 0, 0, 0, 0]).1
      [5, 9, 2] (some scenC_cache)).2.2 = some scenC_cache ∧
    ([5, 9, 2] : List Nat) ≠ [5, 9] := by
  with_unfolding_all decide

/-- C1 amended: in Scenario C the divergence step records keep index 2 and
pending position (2, 7); a backtrack call made before the next on_logits
(the prescribed host order) returns tokens [5, 9] and the cache truncated to
sequence-position length 2, and leaves the position pending; the next
on_logits call then sets token 7's logit to the maximum value and clears the
position. -/
theorem C1_scenario_c_amended :
    scenC_diverged.keep_index = 2 ∧
    scenC_diverged.backtrack_position = some (2, 7) ∧
    scenC_diverged.is_flat = true ∧
    (backtrack scenC_diverged [5, 9, 2] (some scenC_cache)).2.1 = [5, 9] ∧
    (backtrack scenC_diverged [5, 9, 2] (some scenC_cache)).2.2 =
      some [[[[[[1], [2]]]], [[[[4], [5]]]]]] ∧
    (backtrack scenC_diverged [5, 9, 2]
      (some scenC_cache)).1.backtrack_position = some (2, 7) ∧
    (on_logits 1000 (backtrack scenC_diverged [5, 9, 2]
      (some scenC_cache)).1 [0, 0, 0, 0, 0, 0, 0, 0]).2 =
      [0, 0, 0, 0, 0, 0, 0, 1000] ∧
    (on_logits 1000 (backtrack scenC_diverged [5, 9, 2]
      (some scenC_cache)).1 [0, 0, 0, 0, 0, 0, 0, 0]).1.backtrack_position
      = none :=
  ⟨by with_unfolding_all decide, by with_unfolding_all decide,
   by with_unfolding_all decide, by with_unfolding_all decide,
   by with_unfolding_all decide, by with_unfolding_all decide,
   by with_unfolding_all decide, by with_unfolding_all decide⟩

/-! ### Structural lemmas about the hooks, for the trace invariants -/

lemma on_logits_fst_fields (fmax : ℚ) (s : Strategy) (l : List ℚ) :
    (on_logits fmax s l).1.cumulative_prob_threshold = s.cumulative_prob_threshold ∧
    (on_logits fmax s l).1.ratio_threshold = s.ratio_threshold ∧
    (on_logits fmax s l).1.is_flat = s.is_flat ∧
    (on_logits fmax s l).1.keep_index = s.keep_index ∧
    ((on_logits fmax s l).1.backtrack_position = none ∨
      (on_logits fmax s l).1.backtrack_position = s.backtrack_position) := by
  cases hf : s.is_flat <;> cases hp : s.backtrack_position <;>
    simp [on_logits, hf, hp]

lemma on_logits_fst_of_not_flat {s : Strategy} (fmax : ℚ) (l : List ℚ)
    (h : s.is_flat = false) : (on_logits fmax s l).1 = s := by
  cases hp : s.backtrack_position <;> simp [on_logits, h, hp]

lemma on_probs_fst (s : Strategy) (probs : List ℚ) :
    (on_probs s probs).1 =
      { s with
          is_flat := is_distribution_flat s.cumulative_prob_threshold
            s.ratio_threshold probs } :=
  rfl

lemma on_next_token_cases (s : Strategy) (toks : List Nat) (probs : List ℚ) :
    (toks.getLastD 0 ≠ argmax probs ∧
      on_next_token s toks probs =
        { s with keep_index := toks.length - 1,
                 backtrack_position := some (toks.length - 1, argmax probs) }) ∨
    (toks.getLastD 0 = argmax probs ∧ s.backtrack_position = none ∧
      on_next_token s toks probs = { s with keep_index := s.keep_index + 1 }) ∨
    (toks.getLastD 0 = argmax probs ∧ s.backtrack_position ≠ none ∧
      on_next_token s toks probs = s) := by
  by_cases h1 : toks.getLastD 0 ≠ argmax probs
  · left
    refine ⟨h1, ?_⟩
    simp only [on_next_token]
    rw [if_pos h1]
  · push_neg at h1
    by_cases h2 : s.backtrack_position = none
    · right; left
      refine ⟨h1, h2, ?_⟩
      simp only [on_next_token]
      rw [if_neg (not_not_intro h1), if_pos h2]
    · right; right
      refine ⟨h1, h2, ?_⟩
      simp only [on_next_token]
      rw [if_neg (not_not_intro h1), if_neg h2]

lemma backtrack_fst (s : Strategy) (toks : List Nat) (cache : Option Cache) :
    (backtrack s toks cache).1 = s := by
  cases hf : s.is_flat <;> cases hp : s.backtrack_position <;>
    simp [backtrack, hf, hp]

lemma backtrack_tokens_cases (s : Strategy) (toks : List Nat)
    (cache : Option Cache) :
    (backtrack s toks cache).2.1 = toks ∨
    ∃ p, s.backtrack_position = some p ∧
      (backtrack s toks cache).2.1 = toks.take p.1 := by
  cases hf : s.is_flat <;> cases hp : s.backtrack_position <;>
    simp [backtrack, hf, hp, popToFrontier_eq_take]

lemma runStep_strat (st : SysState) (stp : Step) :
    (runStep st stp).strat =
      on_next_token ((on_probs ((on_logits 0 st.strat []).1) stp.probs).1)
        (st.tokens ++ [stp.sampled]) stp.probs := by
  by_cases h : stp.doBacktrack <;> simp [runStep, h, backtrack_fst]

lemma runStep_tokens (st : SysState) (stp : Step) :
    (runStep st stp).tokens = st.tokens ++ [stp.sampled] ∨
    ∃ p, (runStep st stp).strat.backtrack_position = some p ∧
      (runStep st stp).tokens = (st.tokens ++ [stp.sampled]).take p.1 := by
  by_cases h : stp.doBacktrack
  · have hs := runStep_strat st stp
    rcases backtrack_tokens_cases
        (on_next_token ((on_probs ((on_logits 0 st.strat []).1) stp.probs).1)
          (st.tokens ++ [stp.sampled]) stp.probs)
        (st.tokens ++ [stp.sampled]) none with h' | ⟨p, hp, h'⟩
    · left
      simp only [runStep, h, if_true]
      exact h'
    · right
      refine ⟨p, ?_, ?_⟩
      · rw [hs]
        exact hp
      · simp only [runStep, h, if_true]
        exact h'
  · left
    simp [runStep, h]

/-! ### The stream invariant is preserved and the keep index is monotone -/

lemma next_strat_inv {s2 : Strategy} {st : SysState} (toks : List Nat)
    (probs : List ℚ)
    (hk2 : s2.keep_index = st.strat.keep_index)
    (hp2 : s2.backtrack_position = none ∨
      s2.backtrack_position = st.strat.backtrack_position)
    (hInv : Inv st) (hlen : toks.length = st.tokens.length + 1) :
    (on_next_token s2 toks probs).keep_index ≤ toks.length ∧
    (∀ p, (on_next_token s2 toks probs).backtrack_position = some p →
      p.1 = (on_next_token s2 toks probs).keep_index) ∧
    st.strat.keep_index ≤ (on_next_token s2 toks probs).keep_index := by
  obtain ⟨hk, hp⟩ := hInv
  rcases on_next_token_cases s2 toks probs with
    ⟨-, hc⟩ | ⟨-, hnone, hc⟩ | ⟨-, hpend, hc⟩
  · have hk3 : (on_next_token s2 toks probs).keep_index = toks.length - 1 := by
      rw [hc]
    have hp3 : (on_next_token s2 toks probs).backtrack_position =
        some (toks.length - 1, argmax probs) := by
      rw [hc]
    refine ⟨?_, ?_, ?_⟩
    · rw [hk3]
      omega
    · intro p hpe
      rw [hp3] at hpe
      have h := Option.some.inj hpe
      rw [hk3, ← h]
    · rw [hk3]
      omega
  · have hk3 : (on_next_token s2 toks probs).keep_index = s2.keep_index + 1 := by
      rw [hc]
    have hp3 : (on_next_token s2 toks probs).backtrack_position =
        s2.backtrack_position := by
      rw [hc]
    refine ⟨?_, ?_, ?_⟩
    · rw [hk3, hk2]
      omega
    · intro p hpe
      rw [hp3, hnone] at hpe
      cases hpe
    · rw [hk3, hk2]
      omega
  · have hk3 : (on_next_token s2 toks probs).keep_index = s2.keep_index := by
      rw [hc]
    have hp3 : (on_next_token s2 toks probs).backtrack_position =
        s2.backtrack_position := by
      rw [hc]
    refine ⟨?_, ?_, ?_⟩
    · rw [hk3, hk2]
      omega
    · intro p hpe
      rw [hp3] at hpe
      rcases hp2 with h2 | h2
      · rw [h2] at hpe
        cases hpe
      · rw [h2] at hpe
        rw [hk3, hk2]
        exact hp p hpe
    · rw [hk3, hk2]

lemma runStep_inv_mono {st : SysState} (stp : Step) (h : Inv st) :
    Inv (runStep st stp) ∧
    st.strat.keep_index ≤ (runStep st stp).strat.keep_index := by
  obtain ⟨-, -, -, h1k, h1p⟩ := on_logits_fst_fields 0 st.strat []
  have hk2 : ((on_probs ((on_logits 0 st.strat []).1) stp.probs).1).keep_index
      = st.strat.keep_index := h1k
  have hp2 : ((on_probs ((on_logits 0 st.strat []).1) stp.probs).1).backtrack_position
        = none ∨
      ((on_probs ((on_logits 0 st.strat []).1) stp.probs).1).backtrack_position
        = st.strat.backtrack_position := h1p
  have hnext := next_strat_inv (st.tokens ++ [stp.sampled]) stp.probs
    hk2 hp2 h (by simp)
  have hs := runStep_strat st stp
  refine ⟨⟨?_, ?_⟩, ?_⟩
  · rcases runStep_tokens st stp with ht | ⟨p, hpe, ht⟩
    · rw [ht, hs]
      exact hnext.1
    · rw [hs] at hpe
      have hp1 := hnext.2.1 p hpe
      rw [ht, hs]
      simp only [List.length_take]
      have h1 := hnext.1
      omega
  · intro p hpe
    rw [hs] at hpe ⊢
    exact hnext.2.1 p hpe
  · rw [hs]
    exact hnext.2.2

lemma runTrace_inv {st : SysState} (steps : List Step) (h : Inv st) :
    Inv (runTrace st steps) := by
  induction steps generalizing st with
  | nil => exact h
  | cons stp rest ih => exact ih ((runStep_inv_mono stp h).1)

lemma initSys_inv (c r : ℚ) : Inv (initSys c r) := by
  constructor
  · simp [initSys, initStrategy]
  · intro p hp
    simp [initSys, initStrategy] at hp

/-! ### Persistence of a dormant pending divergence -/

lemma runStep_match_pending {c r : ℚ} {pos : Nat × Nat} {kp : Nat}
    {st : SysState} {stp : Step} {b : Bool}
    (hd : Dormant c r pos kp st)
    (h1 : stp.sampled = argmax stp.probs)
    (h2 : is_distribution_flat c r stp.probs = b) :
    (runStep st stp).strat = { st.strat with is_flat := b } := by
  obtain ⟨hc, hr, hfl, hpos, hkp⟩ := hd
  have hs := runStep_strat st stp
  have hlog : (on_logits 0 st.strat []).1 = st.strat :=
    on_logits_fst_of_not_flat 0 [] hfl
  have h2a : is_distribution_flat st.strat.cumulative_prob_threshold
      st.strat.ratio_threshold stp.probs = b := by
    rw [hc, hr]
    exact h2
  have h2' : (on_probs st.strat stp.probs).1 = { st.strat with is_flat := b } := by
    rw [on_probs_fst, h2a]
  rw [hs, hlog, h2']
  have hlast : (st.tokens ++ [stp.sampled]).getLastD 0 = argmax stp.probs := by
    rw [List.getLastD_concat]
    exact h1
  rcases on_next_token_cases { st.strat with is_flat := b }
      (st.tokens ++ [stp.sampled]) stp.probs with
    ⟨hne, -⟩ | ⟨-, hnone, -⟩ | ⟨-, -, hcq⟩
  · exact absurd hlast hne
  · rw [show ({ st.strat with is_flat := b } : Strategy).backtrack_position =
        st.strat.backtrack_position from rfl, hpos] at hnone
    cases hnone
  · exact hcq

lemma runStep_dormant {c r : ℚ} {pos : Nat × Nat} {kp : Nat}
    {st : SysState} {stp : Step}
    (hd : Dormant c r pos kp st) (hq : QuietStep c r stp) :
    Dormant c r pos kp (runStep st stp) := by
  obtain ⟨hq1, hq2, -⟩ := hq
  have h := runStep_match_pending hd hq1 hq2
  obtain ⟨hc, hr, hfl, hpos, hkp⟩ := hd
  exact ⟨by rw [h]; exact hc, by rw [h]; exact hr, by rw [h],
    by rw [h]; exact hpos, by rw [h]; exact hkp⟩

lemma runTrace_dormant {c r : ℚ} {pos : Nat × Nat} {kp : Nat} {st : SysState}
    (steps : List Step) (hd : Dormant c r pos kp st)
    (hq : ∀ stp ∈ steps, QuietStep c r stp) :
    Dormant c r pos kp (runTrace st steps) := by
  induction steps generalizing st with
  | nil => exact hd
  | cons stp rest ih =>
      exact ih (runStep_dormant hd (hq stp (by simp)))
        (fun s hs => hq s (by simp [hs]))

/-- C8: under the prescribed per-step call order, starting from a freshly
constructed strategy with an empty token sequence, the keep index never
exceeds the current length of the token sequence. -/
theorem C8_keep_le_length (c r : ℚ) (steps : List Step) :
    (runTrace (initSys c r) steps).strat.keep_index ≤
      (runTrace (initSys c r) steps).tokens.length :=
  (runTrace_inv steps (initSys_inv c r)).1

/-- C6 counterexample: in a prescribed trace with no backtrack call, a
divergence at step 1 (distribution [0.6, 0.4], sampled token 1, argmax 0,
not flat) leaves position (0, 0) pending with keep index 0; a second
identical divergence step raises the keep index to 1 while that position is
still pending, contradicting the claim that the keep index never increases
while a backtrack position is pending. -/
theorem C6_counterexample :
    (runTrace (initSys (35/100) (3/2))
      [⟨[3/5, 2/5], 1, false⟩]).strat.backtrack_position = some (0, 0) ∧
    (runTrace (initSys (35/100) (3/2))
      [⟨[3/5, 2/5], 1, false⟩]).strat.keep_index = 0 ∧
    (runTrace (initSys (35/100) (3/2))
      [⟨[3/5, 2/5], 1, false⟩, ⟨[3/5, 2/5], 1, false⟩]).strat.keep_index = 1 :=
  ⟨by with_unfolding_all decide, by with_unfolding_all decide,
   by with_unfolding_all decide⟩

/-- C6 amended: across every prescribed step from a fresh stream the keep
index never decreases (backtrack included, since backtrack never changes
it), and an on_next_token call made while a position is pending and the
sampled token matches the argmax leaves the whole state unchanged; only a
new divergence (sampled differing from argmax) can raise the keep index
while a position is pending, overwriting the pending position. -/
theorem C6_amended_monotonicity :
    (∀ (c r : ℚ) (steps : List Step) (stp : Step),
      (runTrace (initSys c r) steps).strat.keep_index ≤
        (runStep (runTrace (initSys c r) steps) stp).strat.keep_index) ∧
    (∀ (s : Strategy) (toks : List Nat) (probs : List ℚ),
      s.backtrack_position ≠ none → toks.getLastD 0 = argmax probs →
      on_next_token s toks probs = s) := by
  constructor
  · intro c r steps stp
    exact (runStep_inv_mono stp (runTrace_inv steps (initSys_inv c r))).2
  · intro s toks probs h1 h2
    simp only [on_next_token]
    rw [if_neg (not_not_intro h2), if_neg h1]

/-- Witness for C6's amended statement: one concrete prescribed step, and a
frozen on_next_token call with a pending position and a matching token. -/
theorem C6_witness :
    (runTrace (initSys (35/100) (3/2)) []).strat.keep_index ≤
      (runStep (runTrace (initSys (35/100) (3/2)) [])
        ⟨[1], 0, false⟩).strat.keep_index ∧
    on_next_token ⟨35/100, 3/2, false, some (0, 0), 0⟩ [0] [1] =
      ⟨35/100, 3/2, false, some (0, 0), 0⟩ :=
  ⟨C6_amended_monotonicity.1 (35/100) (3/2) [] ⟨[1], 0, false⟩,
   C6_amended_monotonicity.2 ⟨35/100, 3/2, false, some (0, 0), 0⟩ [0] [1]
     (by with_unfolding_all decide) (by with_unfolding_all decide)⟩

/-- C10: a divergence recorded at a non-flat step stays dormant: the pending
position and the frozen keep index persist unchanged across arbitrarily many
following steps whose sampled token matches the argmax and whose verdict is
not flat; after one further matching step whose verdict is flat, the next
on_logits call forces the originally recorded preferred token and clears the
position. -/
theorem C10_pending_persistence (st0 : SysState) (k pref : Nat)
    (steps : List Step) (final : Step) (fmax : ℚ) (logits : List ℚ)
    (h0 : st0.strat.backtrack_position = some (k, pref))
    (h1 : st0.strat.is_flat = false)
    (hq : ∀ stp ∈ steps, QuietStep st0.strat.cumulative_prob_threshold
      st0.strat.ratio_threshold stp)
    (hf1 : final.sampled = argmax final.probs)
    (hf2 : is_distribution_flat st0.strat.cumulative_prob_threshold
      st0.strat.ratio_threshold final.probs = true) :
    (runTrace st0 steps).strat.backtrack_position = some (k, pref) ∧
    (runTrace st0 steps).strat.keep_index = st0.strat.keep_index ∧
    (runStep (runTrace st0 steps) final).strat.backtrack_position =
      some (k, pref) ∧
    (runStep (runTrace st0 steps) final).strat.keep_index =
      st0.strat.keep_index ∧
    (on_logits fmax (runStep (runTrace st0 steps) final).strat logits).2 =
      logits.set pref fmax ∧
    (on_logits fmax (runStep (runTrace st0 steps) final).strat
      logits).1.backtrack_position = none := by
  have hd0 : Dormant st0.strat.cumulative_prob_threshold
      st0.strat.ratio_threshold (k, pref) st0.strat.keep_index st0 :=
    ⟨rfl, rfl, h1, h0, rfl⟩
  have hd1 := runTrace_dormant steps hd0 hq
  obtain ⟨hc1, hr1, hfl1, hpos1, hkp1⟩ := hd1
  have hst2 := runStep_match_pending (runTrace_dormant steps hd0 hq) hf1 hf2
  have hflat2 : (runStep (runTrace st0 steps) final).strat.is_flat = true := by
    rw [hst2]
  have hpos2 : (runStep (runTrace st0 steps) final).strat.backtrack_position =
      some (k, pref) := by
    rw [hst2]
    exact hpos1
  have heq : on_logits fmax (runStep (runTrace st0 steps) final).strat logits =
      ({ (runStep (runTrace st0 steps) final).strat with
          backtrack_position := none }, logits.set pref fmax) := by
    simp [on_logits, hflat2, hpos2]
  refine ⟨hpos1, hkp1, hpos2, ?_, ?_, ?_⟩
  · rw [hst2]
    exact hkp1
  · rw [heq]
  · rw [heq]

/-- Witness for C10: a concrete dormant divergence, one quiet step, one flat
step, then the forced logit. -/
theorem C10_witness :
    (on_logits 99 (runStep (runTrace ⟨⟨35/100, 3/2, false, some (0, 0), 0⟩, [1]⟩
      [⟨[3/5, 2/5], 0, false⟩]) ⟨[3/10, 29/100, 28/100, 13/100], 0, false⟩).strat
      [0, 0]).2 = ([0, 0] : List ℚ).set 0 99 :=
  (C10_pending_persistence ⟨⟨35/100, 3/2, false, some (0, 0), 0⟩, [1]⟩ 0 0
    [⟨[3/5, 2/5], 0, false⟩] ⟨[3/10, 29/100, 28/100, 13/100], 0, false⟩ 99 [0, 0]
    rfl rfl
    (by
      intro stp hstp
      rw [List.mem_singleton.mp hstp]
      exact ⟨by with_unfolding_all decide, by with_unfolding_all decide, rfl⟩)
    (by with_unfolding_all decide)
    (by with_unfolding_all decide)).2.2.2.2.1

end AntiFlatten
